import Mathlib

/-!
Verification of the querable path-resolution library.

The Rust source is embedded shallowly: Rust `&str` values become `List Char`
(both tokenizer syntaxes split only at the single-byte ASCII characters
`'.'`, `'/'`, `'['`, `']'`, so byte positions used by the Rust slicing
coincide with character positions at every split point), `Result<T, E>`
becomes `Except E T`, and the `Queryable` / `Tokenizer` traits become
structures of functions.
-/

namespace Querable

/-- Embeds `kind.rs`: `enum QueryKind { Array, Dictionary }`. -/
inductive QueryKind where
  | Array : QueryKind
  | Dictionary : QueryKind
deriving DecidableEq, Repr

/-- The kind of `std::num::ParseIntError` produced by `str::parse::<usize>`:
the input is empty, contains a non-digit, or overflows the target type. -/
inductive ParseIntError where
  | Empty : ParseIntError
  | InvalidDigit : ParseIntError
  | PosOverflow : ParseIntError
deriving DecidableEq, Repr

/-- Embeds `error.rs`: `enum IndexError`. -/
inductive IndexError where
  | IntError : ParseIntError → IndexError
  | ParseError : List Char → IndexError
  | CustomError : List Char → IndexError
deriving DecidableEq, Repr

/-- Embeds `error.rs`: `enum KeyError`. -/
inductive KeyError where
  | ParseError : List Char → KeyError
  | EmptyKey : KeyError
  | CustomError : List Char → KeyError
deriving DecidableEq, Repr

/-- Embeds `error.rs`: `enum Error`.  The `KeyError` and `IndexError`
constructors embed the `From<KeyError>` / `From<IndexError>` conversions
used by the `?` operator in `Queryable::query`. -/
inductive Error where
  | KeyNotExist : List Char → Error
  | IndexNotExist : Nat → Error
  | EmptyPath : QueryKind → Error
  | UnknownType : List Char → Error
  | IndexError : IndexError → Error
  | KeyError : KeyError → Error
  | TypeError : List Char → QueryKind → QueryKind → Error
deriving DecidableEq, Repr

/-- Rust `char::is_whitespace`: the Unicode `White_Space` property,
listed by code point. -/
def isRustWhitespace (c : Char) : Bool :=
  c.toNat = 0x09 ∨ c.toNat = 0x0A ∨ c.toNat = 0x0B ∨ c.toNat = 0x0C ∨
  c.toNat = 0x0D ∨ c.toNat = 0x20 ∨ c.toNat = 0x85 ∨ c.toNat = 0xA0 ∨
  c.toNat = 0x1680 ∨ (0x2000 ≤ c.toNat ∧ c.toNat ≤ 0x200A) ∨
  c.toNat = 0x2028 ∨ c.toNat = 0x2029 ∨ c.toNat = 0x202F ∨
  c.toNat = 0x205F ∨ c.toNat = 0x3000

/-- Rust `str::find`: index of the first character satisfying `p`
(at a split character all byte/char index distinctions vanish, see the
module comment). -/
def findFirst (p : Char → Bool) : List Char → Option Nat
  | [] => none
  | c :: cs => if p c then some 0 else (findFirst p cs).map (· + 1)

/-- Value of a list of ASCII decimal digits, most significant first. -/
def digitsVal (l : List Char) : Nat :=
  l.foldl (fun acc c => acc * 10 + (c.toNat - 48)) 0

/-- Rust `str::parse::<usize>` on a 64-bit target: optional leading `'+'`,
then one or more ASCII digits; value must fit in `usize` (here `2 ^ 64`).
A leading `'-'` is rejected for an unsigned target (`InvalidDigit`). -/
def parseUsize (s : List Char) : Except ParseIntError Nat :=
  if s.isEmpty then .error .Empty
  else
    let digits := if s.head? = some '+' then s.drop 1 else s
    if digits.isEmpty then .error .InvalidDigit
    else if digits.all Char.isDigit then
      if digitsVal digits < 2 ^ 64 then .ok (digitsVal digits)
      else .error .PosOverflow
    else .error .InvalidDigit

/-- Embeds `types.rs`: `pub type State<'a> = (Option<&'a str>, Option<&'a str>)`,
the `(current, next)` pair returned by `Tokenizer::dict_parse`. -/
abbrev State : Type := Option (List Char) × Option (List Char)

/-- Embeds `types.rs`: `trait Tokenizer`, as a structure of its two
static methods. -/
structure Tokenizer where
  index_parse : List Char → Except IndexError Nat
  dict_parse : List Char → Except KeyError State

/-- Embeds `default.rs`: `impl Tokenizer for DefaultTokenizer`.

`index_parse`: the key must start with `'['`, end with `']'` and have
length greater than 2; the inner text `key[1..key.len()-1]` is parsed as
`usize`.  `dict_parse`: reject the empty string; find the first `'.'`;
at position 0 reject with `EmptyKey`; otherwise the current step is the
text before it (rejected if it contains whitespace) and the remainder the
text after it; with no `'.'` the whole string is the step. -/
def DefaultTokenizer : Tokenizer where
  index_parse key :=
    if key.head? = some '[' ∧ key.getLast? = some ']' ∧ key.length > 2 then
      match parseUsize ((key.drop 1).dropLast) with
      | .ok n => .ok n
      | .error e => .error (.IntError e)
    else .error (.ParseError key)
  dict_parse key :=
    if key.isEmpty then .error .EmptyKey
    else
      match findFirst (· = '.') key with
      | some idx =>
        -- Rust pattern `Some(0)` before `Some(idx)`
        if idx = 0 then .error .EmptyKey
        else
          let current := key.take idx
          match findFirst isRustWhitespace current with
          | some _ => .error (.ParseError current)
          | none => .ok (some current, some (key.drop (idx + 1)))
      | none => .ok (some key, none)

/-- Embeds `default.rs`: `impl Tokenizer for SlashTokenizer`.

`index_parse`: the bare key is parsed as `usize`.  `dict_parse`: reject
the empty string and any string not starting with `'/'`; find the first
`'/'` in `key[1..]`; at position 0 reject with `EmptyKey` (case `"//"`);
otherwise the current step is `key[1..pivot]` (rejected if it contains
whitespace) and the remainder `key[pivot..]`, which keeps its leading
`'/'`; with no further `'/'` the step is `key[1..]`. -/
def SlashTokenizer : Tokenizer where
  index_parse key :=
    match parseUsize key with
    | .ok n => .ok n
    | .error e => .error (.IntError e)
  dict_parse key :=
    if key.isEmpty then .error .EmptyKey
    else if key.head? ≠ some '/' then .error (.ParseError key)
    else
      match findFirst (· = '/') (key.drop 1) with
      | some idx =>
        -- Rust pattern `Some(0)` (case `"//"`) before `Some(idx)`
        if idx = 0 then .error .EmptyKey
        else
          let pivot := idx + 1
          let current := (key.take pivot).drop 1
          match findFirst isRustWhitespace current with
          | some _ => .error (.ParseError current)
          | none => .ok (some current, some (key.drop pivot))
      | none => .ok (some (key.drop 1), none)

/-- Embeds `types.rs`: `trait Queryable`, as a structure of the three
methods an implementor supplies (`query` itself is the provided method
`queryFuel` below). -/
structure Queryable (α : Type) where
  query_kind : α → Option QueryKind
  query_dict : α → List Char → Except Error α
  query_array : α → Nat → Except Error α

/-- Embeds `types.rs`: the provided method `Queryable::query`.

The Rust recursion is on the remainder string; since a general `Tokenizer`
need not shrink it, the embedding takes explicit fuel and returns `none`
when fuel runs out.  Theorems below show that for the two shipped
tokenizers fuel `numSteps path` (hence a fortiori `path.length + 1`)
always suffices, so `query` (below) computes the Rust function for them.

Faithful points: `T.dict_parse path` runs first and its error is wrapped
through `From<KeyError> for Error` (the `?` operator); in the array branch
with a remainder pending, an `Err` from `query_array` is replaced by
`Error::IndexNotExist(index)` (the `_ =>` arm of the Rust `match`). -/
def queryFuel {α : Type} (Q : Queryable α) (T : Tokenizer) :
    Nat → α → List Char → Option (Except Error α)
  | 0, _, _ => none
  | fuel + 1, self, path =>
    match T.dict_parse path with
    | .error e => some (.error (.KeyError e))
    | .ok tokens =>
      match Q.query_kind self with
      | some .Dictionary =>
        match tokens with
        | (some key, some next) =>
          match Q.query_dict self key with
          | .ok child => queryFuel Q T fuel child next
          | .error e => some (.error e)
        | (some key, none) => some (Q.query_dict self key)
        | _ => some (.error (.EmptyPath .Dictionary))
      | some .Array =>
        match tokens with
        | (some key, some next) =>
          match T.index_parse key with
          | .error e => some (.error (.IndexError e))
          | .ok index =>
            match Q.query_array self index with
            | .ok child => queryFuel Q T fuel child next
            | .error _ => some (.error (.IndexNotExist index))
        | (some key, none) =>
          match T.index_parse key with
          | .error e => some (.error (.IndexError e))
          | .ok index => some (Q.query_array self index)
        | _ => some (.error (.EmptyPath .Array))
      | none => some (.error (.UnknownType path))

/-- `Queryable::query` with the fuel `path.length + 1`, sufficient for
both shipped tokenizers (their remainders strictly shrink, see
`claim_C9_termination`). -/
def query {α : Type} (Q : Queryable α) (T : Tokenizer) (self : α)
    (path : List Char) : Option (Except Error α) :=
  queryFuel Q T (path.length + 1) self path

/-- Embeds `lib.rs`: `pub fn lookup`, the thin entry point delegating to
`Queryable::query` (the `Into<Cow<str>>` conversion is the identity on an
already-borrowed string). -/
def lookup {α : Type} (Q : Queryable α) (T : Tokenizer) (v : α)
    (q : List Char) : Option (Except Error α) :=
  query Q T v q

/-- Embeds the test value model of `lib.rs`: `enum Literal`.  The payload
of `Number(Number)` is collapsed to the enum of its cases; the `f64`
payload of `Number::Double` is not representable here and is never
inspected by any method, so `Double` carries no data. -/
inductive Literal where
  | Integer : Int → Literal
  | Double : Literal
  | String : List Char → Literal
  | Bool : Bool → Literal
deriving DecidableEq, Repr

/-- Embeds the test value model of `lib.rs`: `enum Value`.  The
`HashMap<String, Value>` is modelled as an association list with
distinct keys (lookup is by key equality, first match). -/
inductive Value where
  | Literal : Literal → Value
  | Dictionary : List (List Char × Value) → Value
  | Array : List Value → Value

/-- `HashMap::get` on the association-list model. -/
def dictGet (d : List (List Char × Value)) (k : List Char) : Option Value :=
  match d with
  | [] => none
  | (k', v) :: rest => if k' = k then some v else dictGet rest k

/-- Rust `format!("[{}]", idx)` used by `Value::query_array` errors. -/
def formatIdx (idx : Nat) : List Char :=
  '[' :: (Nat.toDigits 10 idx) ++ [']']

/-- Embeds `impl Queryable for Value` from the tests of `lib.rs`:
literals are leaves; `query_dict` succeeds only on a `Dictionary`
(`TypeError` on an `Array`, `UnknownType` on a literal); `query_array`
succeeds only on an `Array` (`TypeError` on a `Dictionary`,
`UnknownType` on a literal). -/
def valueQueryable : Queryable Value where
  query_kind v :=
    match v with
    | .Literal _ => none
    | .Array _ => some .Array
    | .Dictionary _ => some .Dictionary
  query_dict v path :=
    match v with
    | .Dictionary d =>
      match dictGet d path with
      | some x => .ok x
      | none => .error (.KeyNotExist path)
    | .Array _ => .error (.TypeError path .Array .Dictionary)
    | _ => .error (.UnknownType path)
  query_array v idx :=
    match v with
    | .Array d =>
      match d.get? idx with
      | some x => .ok x
      | none => .error (.IndexNotExist idx)
    | .Dictionary _ => .error (.TypeError (formatIdx idx) .Dictionary .Array)
    | _ => .error (.UnknownType (formatIdx idx))

/-! ### Helper lemmas about `findFirst` -/

theorem findFirst_eq_none_iff (p : Char → Bool) (l : List Char) :
    findFirst p l = none ↔ ∀ x ∈ l, p x = false := by
  induction l with
  | nil => simp [findFirst]
  | cons c cs ih =>
    by_cases hc : p c = true
    · simp [findFirst, hc]
    · have hc' : p c = false := by simpa using hc
      simp only [findFirst, hc', Bool.false_eq_true, if_false,
        Option.map_eq_none', ih, List.mem_cons]
      constructor
      · rintro h x (rfl | hx)
        · exact hc'
        · exact h x hx
      · intro h x hx
        exact h x (Or.inr hx)

theorem findFirst_eq_some (p : Char → Bool) :
    ∀ (l : List Char) (idx : Nat), findFirst p l = some idx →
      ∃ a c b, l = a ++ c :: b ∧ a.length = idx ∧ p c = true ∧
        ∀ x ∈ a, p x = false := by
  intro l
  induction l with
  | nil => intro idx h; simp [findFirst] at h
  | cons c cs ih =>
    intro idx h
    by_cases hc : p c = true
    · simp only [findFirst, hc, if_true, Option.some.injEq] at h
      exact ⟨[], c, cs, by simp, by simp [← h], hc, by simp⟩
    · have hc' : p c = false := by simpa using hc
      simp only [findFirst, hc', Bool.false_eq_true, if_false,
        Option.map_eq_some'] at h
      obtain ⟨j, hj, rfl⟩ := h
      obtain ⟨a, c', b, rfl, hlen, hc'', ha⟩ := ih j hj
      refine ⟨c :: a, c', b, by simp, by simp [hlen], hc'', ?_⟩
      intro x hx
      rcases List.mem_cons.mp hx with rfl | hx
      · exact hc'
      · exact ha x hx

/-! ### Structure of successful `dict_parse` results -/

/-- Every `Ok` of `DefaultTokenizer.dict_parse` is either a first-dot split
`key = cur ++ "." ++ rest` with `cur` nonempty, dot-free and
whitespace-free, or the base case `(Some(key), None)` with `key` nonempty
and dot-free. -/
theorem default_dict_parse_ok (key : List Char) (st : State)
    (h : DefaultTokenizer.dict_parse key = .ok st) :
    (∃ cur rest, st = (some cur, some rest) ∧ key = cur ++ '.' :: rest ∧
      cur ≠ [] ∧ '.' ∉ cur ∧ ∀ x ∈ cur, isRustWhitespace x = false) ∨
    (st = (some key, none) ∧ key ≠ [] ∧ '.' ∉ key) := by
  simp only [DefaultTokenizer] at h
  by_cases hk : key.isEmpty
  · rw [if_pos hk] at h
    exact absurd h (by simp)
  · rw [if_neg hk] at h
    split at h
    next idx hfind =>
      by_cases h0 : idx = 0
      · rw [if_pos h0] at h
        exact absurd h (by simp)
      · rw [if_neg h0] at h
        split at h
        next j hw => exact absurd h (by simp)
        next hw =>
          simp only [Except.ok.injEq] at h
          left
          obtain ⟨a, c, b, hkey, hlen, hc, ha⟩ :=
            findFirst_eq_some _ key idx hfind
          have hc : c = '.' := by simpa using hc
          subst hc
          have htake : key.take idx = a := by
            rw [hkey, ← hlen, List.take_left]
          have hdrop : key.drop (idx + 1) = b := by
            have h2 : key = (a ++ ['.']) ++ b := by simpa using hkey
            have h3 : (a ++ ['.']).length = idx + 1 := by simp [hlen]
            rw [h2, ← h3, List.drop_left]
          refine ⟨a, b, ?_, hkey, ?_, ?_, ?_⟩
          · rw [← h, htake, hdrop]
          · intro ha0; rw [ha0] at hlen; simp at hlen; omega
          · intro hmem
            have := ha _ hmem; simp at this
          · intro x hx
            rw [htake] at hw
            exact (findFirst_eq_none_iff _ _).mp hw x hx
    next hfind =>
      -- no dot: base case
      right
      simp only [Except.ok.injEq] at h
      refine ⟨h.symm, by simpa using hk, ?_⟩
      intro hdot
      have := (findFirst_eq_none_iff _ _).mp hfind '.' hdot
      simp at this

/-- Every `Ok` of `SlashTokenizer.dict_parse` is either a split
`key = "/" ++ cur ++ "/" ++ rest` with `cur` nonempty, slash-free and
whitespace-free and state `(Some(cur), Some("/" ++ rest))`, or the base
case `key = "/" ++ tail` with `tail` slash-free and state
`(Some(tail), None)`. -/
theorem slash_dict_parse_ok (key : List Char) (st : State)
    (h : SlashTokenizer.dict_parse key = .ok st) :
    (∃ cur rest, st = (some cur, some ('/' :: rest)) ∧
      key = '/' :: cur ++ '/' :: rest ∧
      cur ≠ [] ∧ '/' ∉ cur ∧ ∀ x ∈ cur, isRustWhitespace x = false) ∨
    (st = (some (key.drop 1), none) ∧ key = '/' :: key.drop 1 ∧
      '/' ∉ key.drop 1) := by
  simp only [SlashTokenizer] at h
  by_cases hk : key.isEmpty
  · rw [if_pos hk] at h
    exact absurd h (by simp)
  · rw [if_neg hk] at h
    by_cases hs : key.head? = some '/'
    · rw [if_neg (by simpa using hs)] at h
      obtain ⟨c, tail, rfl⟩ : ∃ c tail, key = c :: tail := by
        cases key with
        | nil => simp at hk
        | cons c tail => exact ⟨c, tail, rfl⟩
      have hc : c = '/' := by simpa using hs
      subst hc
      simp only [List.drop_succ_cons, List.drop_zero] at h ⊢
      split at h
      next idx hfind =>
        by_cases h0 : idx = 0
        · rw [if_pos h0] at h
          exact absurd h (by simp)
        · rw [if_neg h0] at h
          split at h
          next j hw => exact absurd h (by simp)
          next hw =>
            simp only [Except.ok.injEq, List.drop_succ_cons] at h
            left
            obtain ⟨a, c, b, htail, hlen, hc, ha⟩ :=
              findFirst_eq_some _ tail idx hfind
            have hc : c = '/' := by simpa using hc
            subst hc
            have htake : (List.take (idx + 1) ('/' :: tail)).drop 1 = a := by
              simp only [List.take_succ_cons, List.drop_succ_cons,
                List.drop_zero]
              rw [htail, ← hlen, List.take_left]
            have hdrop : List.drop idx tail = '/' :: b := by
              rw [htail, ← hlen, List.drop_left]
            refine ⟨a, b, ?_, by simp [htail], ?_, ?_, ?_⟩
            · rw [← h, htake, hdrop]
            · intro ha0; rw [ha0] at hlen; simp at hlen; omega
            · intro hmem
              have := ha _ hmem; simp at this
            · intro x hx
              rw [htake] at hw
              exact (findFirst_eq_none_iff _ _).mp hw x hx
      next hfind =>
        right
        simp only [Except.ok.injEq] at h
        refine ⟨h.symm, by simp, ?_⟩
        intro hmem
        have := (findFirst_eq_none_iff _ _).mp hfind '/' (by simpa using hmem)
        simp at this
    · rw [if_pos (by simpa using hs)] at h
      exact absurd h (by simp)

/-! ### Remainders shrink -/

/-- The remainder returned by `DefaultTokenizer.dict_parse` is shorter than
the input by at least 2: the consumed step (nonempty) plus the separator. -/
theorem default_rest_shorter (key : List Char) (c : Option (List Char))
    (rest : List Char)
    (h : DefaultTokenizer.dict_parse key = .ok (c, some rest)) :
    rest.length + 2 ≤ key.length := by
  rcases default_dict_parse_ok key _ h with
    ⟨cur, rest', hst, hkey, hc0, _, _⟩ | ⟨hst, _, _⟩
  · have hr : rest = rest' := by simpa using congrArg Prod.snd hst
    subst hr
    subst hkey
    have : 1 ≤ cur.length := List.length_pos.mpr hc0
    simp only [List.length_append, List.length_cons]
    omega
  · exact absurd (congrArg Prod.snd hst) (by simp)

/-- The remainder returned by `SlashTokenizer.dict_parse` is shorter than
the input by at least 2: the consumed step (nonempty) plus the leading
separator (the remainder keeps the next separator). -/
theorem slash_rest_shorter (key : List Char) (c : Option (List Char))
    (rest : List Char)
    (h : SlashTokenizer.dict_parse key = .ok (c, some rest)) :
    rest.length + 2 ≤ key.length := by
  rcases slash_dict_parse_ok key _ h with
    ⟨cur, rest', hst, hkey, hc0, _, _⟩ | ⟨hst, _, _⟩
  · have hr : rest = '/' :: rest' := by simpa using congrArg Prod.snd hst
    subst hr
    subst hkey
    have : 1 ≤ cur.length := List.length_pos.mpr hc0
    simp only [List.length_append, List.length_cons]
    omega
  · exact absurd (congrArg Prod.snd hst) (by simp)

/-! ### Fuel is irrelevant above a shrinking measure -/

/-- If `μ` strictly decreases across `T.dict_parse` remainders, then any
fuel of at least `μ path` computes the same result... -/
theorem queryFuel_congr {α : Type} (Q : Queryable α) (T : Tokenizer)
    (μ : List Char → Nat) (hpos : ∀ path, 1 ≤ μ path)
    (hμ : ∀ key c rest, T.dict_parse key = .ok (c, some rest) →
      μ rest < μ key) :
    ∀ (fuel fuel' : Nat) (v : α) (path : List Char),
      μ path ≤ fuel → μ path ≤ fuel' →
      queryFuel Q T fuel v path = queryFuel Q T fuel' v path := by
  intro fuel
  induction fuel with
  | zero => intro fuel' v path hf _; have := hpos path; omega
  | succ f ih =>
    intro fuel' v path hf hf'
    cases fuel' with
    | zero => have := hpos path; omega
    | succ g =>
      cases hd : T.dict_parse path with
      | error e => simp [queryFuel, hd]
      | ok tokens =>
        obtain ⟨c?, n?⟩ := tokens
        cases hk : Q.query_kind v with
        | none => simp [queryFuel, hd, hk]
        | some k =>
          cases k with
          | Dictionary =>
            cases c? with
            | none => simp [queryFuel, hd, hk]
            | some key =>
              cases n? with
              | none => simp [queryFuel, hd, hk]
              | some next =>
                cases hq : Q.query_dict v key with
                | error e => simp [queryFuel, hd, hk, hq]
                | ok child =>
                  simp only [queryFuel, hd, hk, hq]
                  exact ih g child next
                    (by have := hμ path _ _ hd; omega)
                    (by have := hμ path _ _ hd; omega)
          | Array =>
            cases c? with
            | none => simp [queryFuel, hd, hk]
            | some key =>
              cases n? with
              | none => simp [queryFuel, hd, hk]
              | some next =>
                cases hi : T.index_parse key with
                | error e => simp [queryFuel, hd, hk, hi]
                | ok index =>
                  cases hq : Q.query_array v index with
                  | error e => simp [queryFuel, hd, hk, hi, hq]
                  | ok child =>
                    simp only [queryFuel, hd, hk, hi, hq]
                    exact ih g child next
                      (by have := hμ path _ _ hd; omega)
                      (by have := hμ path _ _ hd; omega)

/-- If `μ` strictly decreases across `T.dict_parse` remainders, fuel
`μ path` never runs out: the recursion terminates. -/
theorem queryFuel_ne_none {α : Type} (Q : Queryable α) (T : Tokenizer)
    (μ : List Char → Nat) (hpos : ∀ path, 1 ≤ μ path)
    (hμ : ∀ key c rest, T.dict_parse key = .ok (c, some rest) →
      μ rest < μ key) :
    ∀ (fuel : Nat) (v : α) (path : List Char), μ path ≤ fuel →
      queryFuel Q T fuel v path ≠ none := by
  intro fuel
  induction fuel with
  | zero => intro v path hf; have := hpos path; omega
  | succ f ih =>
    intro v path hf
    cases hd : T.dict_parse path with
    | error e => simp [queryFuel, hd]
    | ok tokens =>
      obtain ⟨c?, n?⟩ := tokens
      cases hk : Q.query_kind v with
      | none => simp [queryFuel, hd, hk]
      | some k =>
        cases k with
        | Dictionary =>
          cases c? with
          | none => simp [queryFuel, hd, hk]
          | some key =>
            cases n? with
            | none => simp [queryFuel, hd, hk]
            | some next =>
              cases hq : Q.query_dict v key with
              | error e => simp [queryFuel, hd, hk, hq]
              | ok child =>
                simp only [queryFuel, hd, hk, hq]
                exact ih child next (by have := hμ path _ _ hd; omega)
        | Array =>
          cases c? with
          | none => simp [queryFuel, hd, hk]
          | some key =>
            cases n? with
            | none =>
              cases hi : T.index_parse key with
              | error e => simp [queryFuel, hd, hk, hi]
              | ok index => simp [queryFuel, hd, hk, hi]
            | some next =>
              cases hi : T.index_parse key with
              | error e => simp [queryFuel, hd, hk, hi]
              | ok index =>
                cases hq : Q.query_array v index with
                | error e => simp [queryFuel, hd, hk, hi, hq]
                | ok child =>
                  simp only [queryFuel, hd, hk, hi, hq]
                  exact ih child next (by have := hμ path _ _ hd; omega)

/-! ### Step counts -/

/-- Number of steps of a bracket/dot-syntax path: one per `"."` separator
plus the final step. -/
def numStepsDot (path : List Char) : Nat := path.count '.' + 1

/-- Number of steps of a slash-syntax path: one per `"/"` separator after
the leading one, plus the final step. -/
def numStepsSlash (path : List Char) : Nat := (path.drop 1).count '/' + 1

theorem default_rest_numSteps (key : List Char) (c : Option (List Char))
    (rest : List Char)
    (h : DefaultTokenizer.dict_parse key = .ok (c, some rest)) :
    numStepsDot rest < numStepsDot key := by
  rcases default_dict_parse_ok key _ h with
    ⟨cur, rest', hst, hkey, _, hdot, _⟩ | ⟨hst, _, _⟩
  · have hr : rest = rest' := by simpa using congrArg Prod.snd hst
    subst hr
    subst hkey
    have hcur : cur.count '.' = 0 := List.count_eq_zero.mpr hdot
    simp only [numStepsDot, List.count_append, List.count_cons_self, hcur]
    omega
  · exact absurd (congrArg Prod.snd hst) (by simp)

theorem slash_rest_numSteps (key : List Char) (c : Option (List Char))
    (rest : List Char)
    (h : SlashTokenizer.dict_parse key = .ok (c, some rest)) :
    numStepsSlash rest < numStepsSlash key := by
  rcases slash_dict_parse_ok key _ h with
    ⟨cur, rest', hst, hkey, _, hsl, _⟩ | ⟨hst, _, _⟩
  · have hr : rest = '/' :: rest' := by simpa using congrArg Prod.snd hst
    subst hr
    subst hkey
    have hcur : cur.count '/' = 0 := List.count_eq_zero.mpr hsl
    simp only [numStepsSlash, List.cons_append, List.drop_succ_cons,
      List.drop_zero, List.drop_one, List.tail_cons, List.count_append,
      List.count_cons_self, hcur]
    omega
  · exact absurd (congrArg Prod.snd hst) (by simp)

theorem numStepsDot_le (path : List Char) :
    numStepsDot path ≤ path.length + 1 := by
  have := List.count_le_length '.' path
  simp only [numStepsDot]
  omega

theorem numStepsSlash_le (path : List Char) :
    numStepsSlash path ≤ path.length + 1 := by
  have h1 := List.count_le_length '/' (path.drop 1)
  have h2 : (path.drop 1).length ≤ path.length := by
    simp [List.length_drop]
  simp only [numStepsSlash]
  omega

/-- `query` with the `DefaultTokenizer` terminates, with recursion depth
bounded by the number of dot-separated steps. -/
theorem query_dot_spec {α : Type} (Q : Queryable α) (v : α)
    (path : List Char) :
    query Q DefaultTokenizer v path ≠ none ∧
    query Q DefaultTokenizer v path =
      queryFuel Q DefaultTokenizer (numStepsDot path) v path := by
  constructor
  · exact queryFuel_ne_none Q DefaultTokenizer numStepsDot
      (fun p => Nat.le_add_left 1 _)
      (fun k c r h => default_rest_numSteps k c r h)
      (path.length + 1) v path (numStepsDot_le path)
  · exact queryFuel_congr Q DefaultTokenizer numStepsDot
      (fun p => Nat.le_add_left 1 _)
      (fun k c r h => default_rest_numSteps k c r h)
      (path.length + 1) (numStepsDot path) v path (numStepsDot_le path)
      (Nat.le_refl _)

/-- `query` with the `SlashTokenizer` terminates, with recursion depth
bounded by the number of slash-separated steps. -/
theorem query_slash_spec {α : Type} (Q : Queryable α) (v : α)
    (path : List Char) :
    query Q SlashTokenizer v path ≠ none ∧
    query Q SlashTokenizer v path =
      queryFuel Q SlashTokenizer (numStepsSlash path) v path := by
  constructor
  · exact queryFuel_ne_none Q SlashTokenizer numStepsSlash
      (fun p => Nat.le_add_left 1 _)
      (fun k c r h => slash_rest_numSteps k c r h)
      (path.length + 1) v path (numStepsSlash_le path)
  · exact queryFuel_congr Q SlashTokenizer numStepsSlash
      (fun p => Nat.le_add_left 1 _)
      (fun k c r h => slash_rest_numSteps k c r h)
      (path.length + 1) (numStepsSlash path) v path (numStepsSlash_le path)
      (Nat.le_refl _)

/-- `findFirst` on a list whose prefix `a` has no match and whose next
element matches returns the index `a.length`. -/
theorem findFirst_append (p : Char → Bool) (a : List Char) (c : Char)
    (b : List Char) (ha : ∀ x ∈ a, p x = false) (hc : p c = true) :
    findFirst p (a ++ c :: b) = some a.length := by
  induction a with
  | nil => simp [findFirst, hc]
  | cons d ds ih =>
    have hd : p d = false := ha d (by simp)
    have ih' := ih (fun x hx => ha x (by simp [hx]))
    simp [findFirst, hd, ih']

/-- `queryFuel` can only surface an `EmptyPath` error from a tokenizer
whose `dict_parse` succeeds with first component `None`, or from the
implementor\'s own methods. -/
theorem queryFuel_no_empty_path {α : Type} (Q : Queryable α) (T : Tokenizer)
    (hT : ∀ key st, T.dict_parse key = .ok st → ∃ c, st.1 = some c)
    (hQd : ∀ (v : α) key k, Q.query_dict v key ≠ .error (.EmptyPath k))
    (hQa : ∀ (v : α) i k, Q.query_array v i ≠ .error (.EmptyPath k)) :
    ∀ (fuel : Nat) (v : α) (path : List Char) (k : QueryKind),
      queryFuel Q T fuel v path ≠ some (.error (.EmptyPath k)) := by
  intro fuel
  induction fuel with
  | zero => intro v path k; simp [queryFuel]
  | succ f ih =>
    intro v path k
    cases hd : T.dict_parse path with
    | error e => simp [queryFuel, hd]
    | ok tokens =>
      obtain ⟨c?, n?⟩ := tokens
      obtain ⟨c, hc⟩ := hT path _ hd
      simp only at hc
      subst hc
      cases hk : Q.query_kind v with
      | none => simp [queryFuel, hd, hk]
      | some kind =>
        cases kind with
        | Dictionary =>
          cases n? with
          | none =>
            cases hq : Q.query_dict v c with
            | ok x => simp [queryFuel, hd, hk, hq]
            | error e =>
              simp only [queryFuel, hd, hk, hq, ne_eq, Option.some.injEq,
                Except.error.injEq]
              intro hcontra
              exact hQd v c k (by rw [hq, hcontra])
          | some next =>
            cases hq : Q.query_dict v c with
            | ok child =>
              simp only [queryFuel, hd, hk, hq]
              exact ih child next k
            | error e =>
              simp only [queryFuel, hd, hk, hq, ne_eq, Option.some.injEq,
                Except.error.injEq]
              intro hcontra
              exact hQd v c k (by rw [hq, hcontra])
        | Array =>
          cases n? with
          | none =>
            cases hi : T.index_parse c with
            | error e => simp [queryFuel, hd, hk, hi]
            | ok i =>
              cases hq : Q.query_array v i with
              | ok x => simp [queryFuel, hd, hk, hi, hq]
              | error e =>
                simp only [queryFuel, hd, hk, hi, hq, ne_eq,
                  Option.some.injEq, Except.error.injEq]
                intro hcontra
                exact hQa v i k (by rw [hq, hcontra])
          | some next =>
            cases hi : T.index_parse c with
            | error e => simp [queryFuel, hd, hk, hi]
            | ok i =>
              cases hq : Q.query_array v i with
              | ok child =>
                simp only [queryFuel, hd, hk, hi, hq]
                exact ih child next k
              | error e => simp [queryFuel, hd, hk, hi, hq]

theorem value_query_dict_no_empty_path (v : Value) (key : List Char)
    (k : QueryKind) :
    valueQueryable.query_dict v key ≠ .error (.EmptyPath k) := by
  cases v with
  | Literal l =>
    simp only [valueQueryable]
    intro h
    injection h with h2
    cases h2
  | Array l =>
    simp only [valueQueryable]
    intro h
    injection h with h2
    cases h2
  | Dictionary d =>
    cases hg : dictGet d key with
    | some x =>
      simp only [valueQueryable, hg]
      intro h
      exact Except.noConfusion h
    | none =>
      simp only [valueQueryable, hg]
      intro h
      injection h with h2
      cases h2

theorem value_query_array_no_empty_path (v : Value) (i : Nat)
    (k : QueryKind) :
    valueQueryable.query_array v i ≠ .error (.EmptyPath k) := by
  cases v with
  | Literal l =>
    simp only [valueQueryable]
    intro h
    injection h with h2
    cases h2
  | Dictionary d =>
    simp only [valueQueryable]
    intro h
    injection h with h2
    cases h2
  | Array l =>
    cases hg : l.get? i with
    | some x =>
      simp only [valueQueryable, hg]
      intro h
      exact Except.noConfusion h
    | none =>
      simp only [valueQueryable, hg]
      intro h
      injection h with h2
      cases h2

theorem default_dict_parse_ok_fst (key : List Char) (st : State)
    (h : DefaultTokenizer.dict_parse key = .ok st) : ∃ c, st.1 = some c := by
  rcases default_dict_parse_ok key st h with
    ⟨cur, rest, hst, _, _, _, _⟩ | ⟨hst, _, _⟩
  · exact ⟨cur, by rw [hst]⟩
  · exact ⟨key, by rw [hst]⟩

theorem slash_dict_parse_ok_fst (key : List Char) (st : State)
    (h : SlashTokenizer.dict_parse key = .ok st) : ∃ c, st.1 = some c := by
  rcases slash_dict_parse_ok key st h with
    ⟨cur, rest, hst, _, _, _, _⟩ | ⟨hst, _, _⟩
  · exact ⟨cur, by rw [hst]⟩
  · exact ⟨key.drop 1, by rw [hst]⟩

/-! ### Claims -/

/-- C5: on every path accepted by `dict_parse`, the split point is the
first (leftmost) separator occurrence — for `DefaultTokenizer` the current
step is the text before the first `"."` and the remainder the text after
it; for `SlashTokenizer` the current step is the text between the leading
`"/"` and the first following `"/"`, and the remainder starts at that
`"/"` (it keeps it); with no separator the whole (prefix-stripped) string
is the step and the remainder is `None`.  In particular
`dict_parse "a.b.c" = Ok((Some("a"), Some("b.c")))`. -/
theorem claim_C5_leftmost_split :
    (∀ key st, DefaultTokenizer.dict_parse key = .ok st →
      (('.' ∈ key → ∃ cur rest, st = (some cur, some rest) ∧
          key = cur ++ '.' :: rest ∧ '.' ∉ cur) ∧
        ('.' ∉ key → st = (some key, none)))) ∧
    (∀ key st, SlashTokenizer.dict_parse key = .ok st →
      (('/' ∈ key.drop 1 →
          ∃ cur rest, st = (some cur, some ('/' :: rest)) ∧
            key = '/' :: cur ++ '/' :: rest ∧ '/' ∉ cur) ∧
        ('/' ∉ key.drop 1 →
          st = (some (key.drop 1), none) ∧ key = '/' :: key.drop 1))) ∧
    DefaultTokenizer.dict_parse "a.b.c".data =
      .ok (some "a".data, some "b.c".data) := by
  refine ⟨?_, ?_, rfl⟩
  · intro key st h
    rcases default_dict_parse_ok key st h with
      ⟨cur, rest, hst, hkey, _, hdot, _⟩ | ⟨hst, _, hdot⟩
    · constructor
      · intro _
        exact ⟨cur, rest, hst, hkey, hdot⟩
      · intro hmem
        exfalso
        apply hmem
        rw [hkey]
        simp
    · constructor
      · intro hmem
        exact absurd hmem hdot
      · intro _
        exact hst
  · intro key st h
    rcases slash_dict_parse_ok key st h with
      ⟨cur, rest, hst, hkey, _, hsl, _⟩ | ⟨hst, hkey, hsl⟩
    · constructor
      · intro _
        exact ⟨cur, rest, hst, hkey, hsl⟩
      · intro hmem
        exfalso
        apply hmem
        rw [hkey]
        simp
    · constructor
      · intro hmem
        exact absurd hmem hsl
      · intro _
        exact ⟨hst, hkey⟩

/-- Witness for C5 at the concrete path `"a.b.c"`. -/
theorem claim_C5_witness :
    ∃ cur rest,
      ((some "a".data, some "b.c".data) : State) = (some cur, some rest) ∧
      "a.b.c".data = cur ++ '.' :: rest ∧ '.' ∉ cur :=
  (claim_C5_leftmost_split.1 "a.b.c".data
    (some "a".data, some "b.c".data) rfl).1 (by decide)

/-- C6: round-trip — re-concatenating the step and the remainder, with the
separator reinserted (for `DefaultTokenizer`: `current ++ "." ++ rest`;
for `SlashTokenizer`: `"/" ++ current ++ rest`, the remainder keeping its
leading `"/"`; the prefix alone reinserted in the base case), reconstructs
the input path exactly. -/
theorem claim_C6_roundtrip :
    (∀ key cur rest,
      DefaultTokenizer.dict_parse key = .ok (some cur, some rest) →
      cur ++ '.' :: rest = key) ∧
    (∀ key cur, DefaultTokenizer.dict_parse key = .ok (some cur, none) →
      cur = key) ∧
    (∀ key cur rest,
      SlashTokenizer.dict_parse key = .ok (some cur, some rest) →
      rest.head? = some '/' ∧ '/' :: cur ++ rest = key) ∧
    (∀ key cur, SlashTokenizer.dict_parse key = .ok (some cur, none) →
      '/' :: cur = key) := by
  refine ⟨?_, ?_, ?_, ?_⟩
  · intro key cur rest h
    rcases default_dict_parse_ok key _ h with
      ⟨cur', rest', hst, hkey, _, _, _⟩ | ⟨hst, _, _⟩
    · have h1 : cur = cur' := by simpa using congrArg Prod.fst hst
      have h2 : rest = rest' := by simpa using congrArg Prod.snd hst
      rw [h1, h2]
      exact hkey.symm
    · exact absurd (congrArg Prod.snd hst) (by simp)
  · intro key cur h
    rcases default_dict_parse_ok key _ h with
      ⟨cur', rest', hst, _, _, _, _⟩ | ⟨hst, _, _⟩
    · exact absurd (congrArg Prod.snd hst) (by simp)
    · simpa using congrArg Prod.fst hst
  · intro key cur rest h
    rcases slash_dict_parse_ok key _ h with
      ⟨cur', rest', hst, hkey, _, _, _⟩ | ⟨hst, _, _⟩
    · have h1 : cur = cur' := by simpa using congrArg Prod.fst hst
      have h2 : rest = '/' :: rest' := by simpa using congrArg Prod.snd hst
      subst h1
      constructor
      · rw [h2]
        rfl
      · rw [h2, hkey]
    · exact absurd (congrArg Prod.snd hst) (by simp)
  · intro key cur h
    rcases slash_dict_parse_ok key _ h with
      ⟨cur', rest', hst, _, _, _, _⟩ | ⟨hst, hkey, _⟩
    · exact absurd (congrArg Prod.snd hst) (by simp)
    · have h1 : cur = key.drop 1 := by simpa using congrArg Prod.fst hst
      rw [h1]
      exact hkey.symm

/-- Witness for C6 at the concrete paths `"a.b"` and `"/a/b"`. -/
theorem claim_C6_witness :
    "a".data ++ '.' :: "b".data = "a.b".data ∧
    '/' :: "a".data ++ "/b".data = "/a/b".data :=
  ⟨claim_C6_roundtrip.1 "a.b".data "a".data "b".data rfl,
    (claim_C6_roundtrip.2.2.1 "/a/b".data "a".data "/b".data rfl).2⟩

/-- C9: every remainder returned by a successful `dict_parse` of either
shipped tokenizer is shorter than the input by at least 2 (the consumed
step plus a separator), and consequently `query` terminates on every
input; the recursion depth is bounded by the number of steps in the path
(fuel `numStepsDot`/`numStepsSlash` computes the same result as any
larger fuel, and never runs out). -/
theorem claim_C9_termination :
    (∀ key c rest, DefaultTokenizer.dict_parse key = .ok (c, some rest) →
      rest.length + 2 ≤ key.length) ∧
    (∀ key c rest, SlashTokenizer.dict_parse key = .ok (c, some rest) →
      rest.length + 2 ≤ key.length) ∧
    (∀ (α : Type) (Q : Queryable α) (v : α) (path : List Char),
      query Q DefaultTokenizer v path ≠ none ∧
      query Q DefaultTokenizer v path =
        queryFuel Q DefaultTokenizer (numStepsDot path) v path) ∧
    (∀ (α : Type) (Q : Queryable α) (v : α) (path : List Char),
      query Q SlashTokenizer v path ≠ none ∧
      query Q SlashTokenizer v path =
        queryFuel Q SlashTokenizer (numStepsSlash path) v path) :=
  ⟨default_rest_shorter, slash_rest_shorter,
    fun _ Q v path => query_dot_spec Q v path,
    fun _ Q v path => query_slash_spec Q v path⟩

/-- Witness for C9 at concrete inputs. -/
theorem claim_C9_witness :
    ("b".data : List Char).length + 2 ≤ ("a.b".data : List Char).length ∧
    ("/b".data : List Char).length + 2 ≤ ("/a/b".data : List Char).length ∧
    query valueQueryable DefaultTokenizer (.Literal .Double) "a.b".data ≠
      none := by
  refine ⟨?_, ?_, ?_⟩
  · exact claim_C9_termination.1 "a.b".data (some "a".data) "b".data rfl
  · exact claim_C9_termination.2.1 "/a/b".data (some "a".data) "/b".data rfl
  · exact (claim_C9_termination.2.2.1 Value valueQueryable
      (.Literal .Double) "a.b".data).1

/-- C10: with the shipped tokenizers `query` never returns
`Err(EmptyPath(_))`: every successful `dict_parse` has a `Some` first
component, so the `EmptyPath`-producing match arms are unreachable (shown
for the repository\'s `Value` implementor, whose own methods never produce
`EmptyPath` either), and the empty path instead surfaces as
`Err(KeyError(EmptyKey))` for every implementor. -/
theorem claim_C10_no_empty_path :
    (∀ key st, DefaultTokenizer.dict_parse key = .ok st →
      ∃ c, st.1 = some c) ∧
    (∀ key st, SlashTokenizer.dict_parse key = .ok st →
      ∃ c, st.1 = some c) ∧
    (∀ (v : Value) (path : List Char) (k : QueryKind),
      query valueQueryable DefaultTokenizer v path ≠
        some (.error (.EmptyPath k)) ∧
      query valueQueryable SlashTokenizer v path ≠
        some (.error (.EmptyPath k))) ∧
    (∀ (α : Type) (Q : Queryable α) (v : α),
      query Q DefaultTokenizer v [] =
        some (.error (.KeyError .EmptyKey)) ∧
      query Q SlashTokenizer v [] =
        some (.error (.KeyError .EmptyKey))) := by
  refine ⟨default_dict_parse_ok_fst, slash_dict_parse_ok_fst, ?_, ?_⟩
  · intro v path k
    constructor
    · exact queryFuel_no_empty_path valueQueryable DefaultTokenizer
        default_dict_parse_ok_fst value_query_dict_no_empty_path
        value_query_array_no_empty_path (path.length + 1) v path k
    · exact queryFuel_no_empty_path valueQueryable SlashTokenizer
        slash_dict_parse_ok_fst value_query_dict_no_empty_path
        value_query_array_no_empty_path (path.length + 1) v path k
  · intro α Q v
    exact ⟨rfl, rfl⟩

/-- Witness for C10 at concrete inputs. -/
theorem claim_C10_witness :
    (∃ c, ((some "a".data, none) : State).1 = some c) ∧
    query valueQueryable DefaultTokenizer (.Literal .Double) "x".data ≠
      some (.error (.EmptyPath .Dictionary)) :=
  ⟨claim_C10_no_empty_path.1 "a".data (some "a".data, none) rfl,
    (claim_C10_no_empty_path.2.2.1 (.Literal .Double) "x".data
      .Dictionary).1⟩

/-- C7: `DefaultTokenizer.index_parse` succeeds with `n` exactly when the
key starts with `"["`, ends with `"]"`, has length greater than 2 and its
inner text parses as a `usize` equal to `n`; a wrong bracket shape yields
`IndexError::ParseError` carrying the whole key, and a shape-correct key
whose inner text fails `usize` parsing (non-digit, or out of range)
yields `IndexError::IntError`; the index is never clamped or defaulted
(the success value is exactly the parsed one). -/
theorem claim_C7_index_parse (key : List Char) :
    (∀ n : Nat, DefaultTokenizer.index_parse key = .ok n ↔
      (key.head? = some '[' ∧ key.getLast? = some ']' ∧ 2 < key.length ∧
        parseUsize ((key.drop 1).dropLast) = .ok n)) ∧
    (¬(key.head? = some '[' ∧ key.getLast? = some ']' ∧ 2 < key.length) →
      DefaultTokenizer.index_parse key = .error (.ParseError key)) ∧
    (∀ e, (key.head? = some '[' ∧ key.getLast? = some ']' ∧
        2 < key.length) →
      parseUsize ((key.drop 1).dropLast) = .error e →
      DefaultTokenizer.index_parse key = .error (.IntError e)) := by
  refine ⟨?_, ?_, ?_⟩
  · intro n
    constructor
    · intro h
      simp only [DefaultTokenizer] at h
      by_cases hs : key.head? = some '[' ∧ key.getLast? = some ']' ∧
          key.length > 2
      · rw [if_pos hs] at h
        cases hp : parseUsize ((key.drop 1).dropLast) with
        | ok m =>
          rw [hp] at h
          simp only [Except.ok.injEq] at h
          subst h
          exact ⟨hs.1, hs.2.1, hs.2.2, rfl⟩
        | error e =>
          rw [hp] at h
          exact absurd h (by simp)
      · rw [if_neg hs] at h
        exact absurd h (by simp)
    · rintro ⟨h1, h2, h3, h4⟩
      simp only [DefaultTokenizer]
      rw [if_pos ⟨h1, h2, h3⟩, h4]
  · intro hns
    simp only [DefaultTokenizer]
    rw [if_neg hns]
  · rintro e ⟨h1, h2, h3⟩ hp
    simp only [DefaultTokenizer]
    rw [if_pos ⟨h1, h2, h3⟩, hp]

/-- Witness for C7: success, wrong shape, and bad inner text. -/
theorem claim_C7_witness :
    DefaultTokenizer.index_parse "[7]".data = .ok 7 ∧
    DefaultTokenizer.index_parse "x]".data =
      .error (.ParseError "x]".data) ∧
    DefaultTokenizer.index_parse "[y]".data =
      .error (.IntError .InvalidDigit) := by
  refine ⟨?_, ?_, ?_⟩
  · exact ((claim_C7_index_parse "[7]".data).1 7).mpr
      ⟨rfl, rfl, by decide, rfl⟩
  · exact (claim_C7_index_parse "x]".data).2.1 (by decide)
  · exact (claim_C7_index_parse "[y]".data).2.2 .InvalidDigit
      ⟨rfl, rfl, by decide⟩ rfl

/-- C1 counterexample: the claim demands `Err(UnknownType(path))` for a
leaf on every path including the empty one, but `query` calls
`dict_parse` before inspecting `query_kind`, so a leaf queried with the
empty path yields `Err(KeyError(EmptyKey))` instead. -/
theorem claim_C1_counterexample :
    valueQueryable.query_kind (.Literal (.Integer 42)) = none ∧
    query valueQueryable DefaultTokenizer (.Literal (.Integer 42)) [] =
      some (.error (.KeyError .EmptyKey)) ∧
    Error.KeyError .EmptyKey ≠ Error.UnknownType [] :=
  ⟨rfl, rfl, by decide⟩

/-- C1 amended: for every leaf value (`query_kind = None`), every
tokenizer and every path on which `dict_parse` succeeds, `query` (and
hence `lookup`) returns `Err(UnknownType(path))` — never `EmptyPath`,
`KeyNotExist` or any `KeyError` — regardless of how many steps remain;
when `dict_parse` fails, its `KeyError` is returned instead. -/
theorem claim_C1_amended {α : Type} (Q : Queryable α) (T : Tokenizer)
    (v : α) (path : List Char) (hleaf : Q.query_kind v = none) :
    (∀ st, T.dict_parse path = .ok st →
      query Q T v path = some (.error (.UnknownType path))) ∧
    (∀ e, T.dict_parse path = .error e →
      query Q T v path = some (.error (.KeyError e))) ∧
    lookup Q T v path = query Q T v path := by
  refine ⟨?_, ?_, rfl⟩
  · intro st hst
    obtain ⟨c?, n?⟩ := st
    simp [query, queryFuel, hst, hleaf]
  · intro e he
    simp [query, queryFuel, he]

/-- Witness for the amended C1 at a concrete leaf and path. -/
theorem claim_C1_amended_witness :
    query valueQueryable DefaultTokenizer (.Literal (.Integer 42)) "a.b".data
      = some (.error (.UnknownType "a.b".data)) :=
  (claim_C1_amended valueQueryable DefaultTokenizer
    (.Literal (.Integer 42)) "a.b".data rfl).1
    (some "a".data, some "b".data) rfl

/-- C3 counterexample: the claim demands `Err(EmptyPath(kind))` for a
non-leaf value on the empty path, but `dict_parse` rejects the empty
path with `KeyError::EmptyKey` before `query_kind` is consulted. -/
theorem claim_C3_counterexample :
    valueQueryable.query_kind
      (.Dictionary [("a".data, .Literal (.Integer 1))]) =
      some .Dictionary ∧
    query valueQueryable DefaultTokenizer
      (.Dictionary [("a".data, .Literal (.Integer 1))]) [] =
      some (.error (.KeyError .EmptyKey)) ∧
    ∀ k, Error.KeyError .EmptyKey ≠ Error.EmptyPath k := by
  refine ⟨rfl, rfl, ?_⟩
  intro k h
  cases h

/-- C3 amended: for every value (of any kind) and both shipped
tokenizers, `query` on the empty path returns
`Err(KeyError(EmptyKey))`: the tokenizer rejects the empty path before
the value\'s kind is inspected, so no `EmptyPath(kind)` is produced. -/
theorem claim_C3_amended {α : Type} (Q : Queryable α) (v : α) :
    query Q DefaultTokenizer v [] = some (.error (.KeyError .EmptyKey)) ∧
    query Q SlashTokenizer v [] = some (.error (.KeyError .EmptyKey)) :=
  ⟨rfl, rfl⟩

/-- A custom implementor of the `Queryable` trait whose `query_array`
fails with an error other than `IndexNotExist`, exercising the generic
provided method `query`. -/
def customArrayQueryable : Queryable Unit where
  query_kind _ := some .Array
  query_dict _ path := .error (.KeyNotExist path)
  query_array _ _ := .error (.KeyError (.CustomError "boom".data))

/-- C2 counterexample: in the array branch with a remainder pending, the
error returned by `query_array` is NOT propagated as-is — it is replaced
by `Err(IndexNotExist(index))` (the `_ =>` arm in `Queryable::query`). -/
theorem claim_C2_counterexample :
    customArrayQueryable.query_array () 0 =
      .error (.KeyError (.CustomError "boom".data)) ∧
    query customArrayQueryable DefaultTokenizer () "[0].[1]".data =
      some (.error (.IndexNotExist 0)) ∧
    Error.IndexNotExist 0 ≠ Error.KeyError (.CustomError "boom".data) := by
  refine ⟨rfl, rfl, ?_⟩
  intro h
  cases h

/-- C2 amended: errors from `dict_parse` (wrapped through
`From<KeyError>`), from `index_parse` (wrapped through
`From<IndexError>`), from `query_dict` (both with and without a pending
remainder), from `query_array` in the base case, and the result of a
recursive `query` — in the dictionary branch and in the array branch
alike, whenever the descent succeeded — are all returned unchanged; the
one exception is the array branch with a remainder still pending, where
any error from `query_array` is replaced by
`Err(IndexNotExist(index))`. -/
theorem claim_C2_amended {α : Type} (Q : Queryable α) :
    (∀ (T : Tokenizer) (v : α) path e, T.dict_parse path = .error e →
      query Q T v path = some (.error (.KeyError e))) ∧
    (∀ (T : Tokenizer) (v : α) path key,
      T.dict_parse path = .ok (some key, none) →
      Q.query_kind v = some .Dictionary →
      query Q T v path = some (Q.query_dict v key)) ∧
    (∀ (T : Tokenizer) (v : α) path key next e,
      T.dict_parse path = .ok (some key, some next) →
      Q.query_kind v = some .Dictionary → Q.query_dict v key = .error e →
      query Q T v path = some (.error e)) ∧
    (∀ (T : Tokenizer) (v : α) path key e,
      T.dict_parse path = .ok (some key, none) →
      Q.query_kind v = some .Array → T.index_parse key = .error e →
      query Q T v path = some (.error (.IndexError e))) ∧
    (∀ (T : Tokenizer) (v : α) path key next e,
      T.dict_parse path = .ok (some key, some next) →
      Q.query_kind v = some .Array → T.index_parse key = .error e →
      query Q T v path = some (.error (.IndexError e))) ∧
    (∀ (T : Tokenizer) (v : α) path key i,
      T.dict_parse path = .ok (some key, none) →
      Q.query_kind v = some .Array → T.index_parse key = .ok i →
      query Q T v path = some (Q.query_array v i)) ∧
    (∀ (T : Tokenizer) (v : α) path key next i e,
      T.dict_parse path = .ok (some key, some next) →
      Q.query_kind v = some .Array → T.index_parse key = .ok i →
      Q.query_array v i = .error e →
      query Q T v path = some (.error (.IndexNotExist i))) ∧
    (∀ (v : α) path key next child,
      DefaultTokenizer.dict_parse path = .ok (some key, some next) →
      Q.query_kind v = some .Dictionary → Q.query_dict v key = .ok child →
      query Q DefaultTokenizer v path = query Q DefaultTokenizer child next) ∧
    (∀ (v : α) path key next child,
      SlashTokenizer.dict_parse path = .ok (some key, some next) →
      Q.query_kind v = some .Dictionary → Q.query_dict v key = .ok child →
      query Q SlashTokenizer v path = query Q SlashTokenizer child next) ∧
    (∀ (v : α) path key next i child,
      DefaultTokenizer.dict_parse path = .ok (some key, some next) →
      Q.query_kind v = some .Array →
      DefaultTokenizer.index_parse key = .ok i →
      Q.query_array v i = .ok child →
      query Q DefaultTokenizer v path = query Q DefaultTokenizer child next) ∧
    (∀ (v : α) path key next i child,
      SlashTokenizer.dict_parse path = .ok (some key, some next) →
      Q.query_kind v = some .Array →
      SlashTokenizer.index_parse key = .ok i →
      Q.query_array v i = .ok child →
      query Q SlashTokenizer v path = query Q SlashTokenizer child next) := by
  refine ⟨?_, ?_, ?_, ?_, ?_, ?_, ?_, ?_, ?_, ?_, ?_⟩
  · intro T v path e hd
    simp [query, queryFuel, hd]
  · intro T v path key hd hk
    simp [query, queryFuel, hd, hk]
  · intro T v path key next e hd hk hq
    simp [query, queryFuel, hd, hk, hq]
  · intro T v path key e hd hk hi
    simp [query, queryFuel, hd, hk, hi]
  · intro T v path key next e hd hk hi
    simp [query, queryFuel, hd, hk, hi]
  · intro T v path key i hd hk hi
    simp [query, queryFuel, hd, hk, hi]
  · intro T v path key next i e hd hk hi hq
    simp [query, queryFuel, hd, hk, hi, hq]
  · intro v path key next child hd hk hq
    have hshort := default_rest_shorter path (some key) next hd
    have hstep : query Q DefaultTokenizer v path =
        queryFuel Q DefaultTokenizer path.length child next := by
      simp [query, queryFuel, hd, hk, hq]
    rw [hstep]
    exact queryFuel_congr Q DefaultTokenizer numStepsDot
      (fun p => Nat.le_add_left 1 _) default_rest_numSteps
      path.length (next.length + 1) child next
      (by have := numStepsDot_le next; omega)
      (numStepsDot_le next)
  · intro v path key next child hd hk hq
    have hshort := slash_rest_shorter path (some key) next hd
    have hstep : query Q SlashTokenizer v path =
        queryFuel Q SlashTokenizer path.length child next := by
      simp [query, queryFuel, hd, hk, hq]
    rw [hstep]
    exact queryFuel_congr Q SlashTokenizer numStepsSlash
      (fun p => Nat.le_add_left 1 _) slash_rest_numSteps
      path.length (next.length + 1) child next
      (by have := numStepsSlash_le next; omega)
      (numStepsSlash_le next)
  · intro v path key next i child hd hk hi hq
    have hshort := default_rest_shorter path (some key) next hd
    have hstep : query Q DefaultTokenizer v path =
        queryFuel Q DefaultTokenizer path.length child next := by
      simp [query, queryFuel, hd, hk, hi, hq]
    rw [hstep]
    exact queryFuel_congr Q DefaultTokenizer numStepsDot
      (fun p => Nat.le_add_left 1 _) default_rest_numSteps
      path.length (next.length + 1) child next
      (by have := numStepsDot_le next; omega)
      (numStepsDot_le next)
  · intro v path key next i child hd hk hi hq
    have hshort := slash_rest_shorter path (some key) next hd
    have hstep : query Q SlashTokenizer v path =
        queryFuel Q SlashTokenizer path.length child next := by
      simp [query, queryFuel, hd, hk, hi, hq]
    rw [hstep]
    exact queryFuel_congr Q SlashTokenizer numStepsSlash
      (fun p => Nat.le_add_left 1 _) slash_rest_numSteps
      path.length (next.length + 1) child next
      (by have := numStepsSlash_le next; omega)
      (numStepsSlash_le next)

/-- Witness for the amended C2 at concrete inputs: the replacement branch
and the base-case propagation. -/
theorem claim_C2_amended_witness :
    query customArrayQueryable DefaultTokenizer () "[2].[3]".data =
      some (.error (.IndexNotExist 2)) ∧
    query customArrayQueryable DefaultTokenizer () "[2]".data =
      some (customArrayQueryable.query_array () 2) ∧
    query valueQueryable DefaultTokenizer
      (.Array [.Array [.Literal (.Integer 9)]]) "[0].[0]".data =
      query valueQueryable DefaultTokenizer
        (.Array [.Literal (.Integer 9)]) "[0]".data := by
  refine ⟨?_, ?_, ?_⟩
  · exact (claim_C2_amended customArrayQueryable).2.2.2.2.2.2.1
      DefaultTokenizer () "[2].[3]".data "[2]".data "[3]".data 2
      (.KeyError (.CustomError "boom".data)) rfl rfl rfl rfl
  · exact (claim_C2_amended customArrayQueryable).2.2.2.2.2.1
      DefaultTokenizer () "[2]".data "[2]".data 2 rfl rfl rfl
  · exact (claim_C2_amended valueQueryable).2.2.2.2.2.2.2.2.2.1
      (.Array [.Array [.Literal (.Integer 9)]]) "[0].[0]".data
      "[0]".data "[0]".data 0 (.Array [.Literal (.Integer 9)])
      rfl rfl rfl rfl

theorem value_kind_dictionary (d : List (List Char × Value)) :
    valueQueryable.query_kind (.Dictionary d) = some .Dictionary := rfl

theorem value_kind_array (l : List Value) :
    valueQueryable.query_kind (.Array l) = some .Array := rfl

theorem value_dict_get_none (d : List (List Char × Value))
    (key : List Char) (hg : dictGet d key = none) :
    valueQueryable.query_dict (.Dictionary d) key =
      .error (.KeyNotExist key) := by
  simp only [valueQueryable, hg]

theorem value_dict_get_some (d : List (List Char × Value))
    (key : List Char) (x : Value) (hg : dictGet d key = some x) :
    valueQueryable.query_dict (.Dictionary d) key = .ok x := by
  simp only [valueQueryable, hg]

/-- C4 counterexample: a bracketed position token against a `Dictionary`
does not surface as `TypeError` through `query` — it is looked up as an
ordinary key and yields `KeyNotExist`; a non-position token against an
`Array` fails inside `index_parse` and yields `IndexError`, again not
`TypeError`. -/
theorem claim_C4_counterexample :
    valueQueryable.query_kind
      (.Dictionary [("a".data, .Literal (.Integer 1))]) =
      some .Dictionary ∧
    query valueQueryable DefaultTokenizer
      (.Dictionary [("a".data, .Literal (.Integer 1))]) "[0]".data =
      some (.error (.KeyNotExist "[0]".data)) ∧
    (∀ s k1 k2, Error.KeyNotExist "[0]".data ≠ Error.TypeError s k1 k2) ∧
    valueQueryable.query_kind (.Array [.Literal (.Integer 1)]) =
      some .Array ∧
    query valueQueryable DefaultTokenizer (.Array [.Literal (.Integer 1)])
      "abc".data =
      some (.error (.IndexError (.ParseError "abc".data))) ∧
    (∀ s k1 k2,
      Error.IndexError (.ParseError "abc".data) ≠ Error.TypeError s k1 k2)
    := by
  refine ⟨rfl, rfl, ?_, rfl, rfl, ?_⟩ <;>
    · intro s k1 k2 h
      cases h

/-- C4 amended: through `query`, a step of the wrong shape never becomes
a `TypeError`: against a `Dictionary`, a bracketed token is treated as an
ordinary key — with or without a pending remainder, it yields
`KeyNotExist` when absent and descends into the stored child when
present; against an `Array`, a non-position token fails in `index_parse`
with `Err(IndexError(..))` whatever the remainder.
`TypeError(segment, expected, found)` is produced only by
`Value::query_dict` invoked directly on an `Array` and by
`Value::query_array` invoked directly on a `Dictionary` — calls `query`
itself never makes, since it dispatches on `query_kind` first. -/
theorem claim_C4_amended :
    (∀ (d : List (List Char × Value)) (path step : List Char)
        (rest : Option (List Char)),
      DefaultTokenizer.dict_parse path = .ok (some step, rest) →
      dictGet d step = none →
      query valueQueryable DefaultTokenizer (.Dictionary d) path =
        some (.error (.KeyNotExist step))) ∧
    (∀ (l : List Value) (path step : List Char)
        (rest : Option (List Char)) (e : IndexError),
      DefaultTokenizer.dict_parse path = .ok (some step, rest) →
      DefaultTokenizer.index_parse step = .error e →
      query valueQueryable DefaultTokenizer (.Array l) path =
        some (.error (.IndexError e))) ∧
    (∀ (l : List Value) (key : List Char),
      valueQueryable.query_dict (.Array l) key =
        .error (.TypeError key .Array .Dictionary)) ∧
    (∀ (d : List (List Char × Value)) (i : Nat),
      valueQueryable.query_array (.Dictionary d) i =
        .error (.TypeError (formatIdx i) .Dictionary .Array)) ∧
    (∀ (d : List (List Char × Value)) (path step rest : List Char)
        (x : Value),
      DefaultTokenizer.dict_parse path = .ok (some step, some rest) →
      dictGet d step = some x →
      query valueQueryable DefaultTokenizer (.Dictionary d) path =
        query valueQueryable DefaultTokenizer x rest) := by
  refine ⟨?_, ?_, fun l key => rfl, fun d i => rfl, ?_⟩
  · intro d path step rest hd hg
    cases rest with
    | none =>
      simp [query, queryFuel, hd, value_kind_dictionary,
        value_dict_get_none d step hg]
    | some r =>
      simp [query, queryFuel, hd, value_kind_dictionary,
        value_dict_get_none d step hg]
  · intro l path step rest e hd hi
    cases rest with
    | none => simp [query, queryFuel, hd, value_kind_array, hi]
    | some r => simp [query, queryFuel, hd, value_kind_array, hi]
  · intro d path step rest x hd hg
    have hshort := default_rest_shorter path (some step) rest hd
    have hstep : query valueQueryable DefaultTokenizer (.Dictionary d) path
        = queryFuel valueQueryable DefaultTokenizer path.length x rest := by
      simp [query, queryFuel, hd, value_kind_dictionary,
        value_dict_get_some d step x hg]
    rw [hstep]
    exact queryFuel_congr valueQueryable DefaultTokenizer numStepsDot
      (fun p => Nat.le_add_left 1 _) default_rest_numSteps
      path.length (rest.length + 1) x rest
      (by have := numStepsDot_le rest; omega)
      (numStepsDot_le rest)

/-- Witness for the amended C4 at concrete inputs. -/
theorem claim_C4_amended_witness :
    query valueQueryable DefaultTokenizer (.Dictionary []) "[5]".data =
      some (.error (.KeyNotExist "[5]".data)) ∧
    query valueQueryable DefaultTokenizer (.Dictionary []) "[0].x".data =
      some (.error (.KeyNotExist "[0]".data)) ∧
    query valueQueryable DefaultTokenizer (.Array []) "xyz".data =
      some (.error (.IndexError (.ParseError "xyz".data))) ∧
    query valueQueryable DefaultTokenizer
      (.Dictionary [("a".data, .Literal (.Integer 3))]) "a.b".data =
      query valueQueryable DefaultTokenizer (.Literal (.Integer 3))
        "b".data := by
  refine ⟨?_, ?_, ?_, ?_⟩
  · exact claim_C4_amended.1 [] "[5]".data "[5]".data none rfl rfl
  · exact claim_C4_amended.1 [] "[0].x".data "[0]".data
      (some "x".data) rfl rfl
  · exact claim_C4_amended.2.1 [] "xyz".data "xyz".data none
      (.ParseError "xyz".data) rfl rfl
  · exact claim_C4_amended.2.2.2.2
      [("a".data, .Literal (.Integer 3))] "a.b".data "a".data "b".data
      (.Literal (.Integer 3)) rfl rfl

/-- C8 counterexample: in the base case (no further separator) neither
tokenizer rejects an empty or whitespace-only leading step — the
whitespace-only dot path `"   "`, the slash paths `"/"` (empty step) and
`"/   "` (whitespace-only step) are all accepted. -/
theorem claim_C8_counterexample :
    DefaultTokenizer.dict_parse "   ".data = .ok (some "   ".data, none) ∧
    SlashTokenizer.dict_parse "/".data = .ok (some [], none) ∧
    SlashTokenizer.dict_parse "/   ".data = .ok (some "   ".data, none) :=
  ⟨rfl, rfl, rfl⟩

/-- C8 amended: the empty path is always rejected, and an empty or
whitespace-containing leading step is rejected only when a separator
follows it — `DefaultTokenizer` rejects a leading `"."` and whitespace in
the step before the first `"."`; `SlashTokenizer` rejects a missing `"/"`
prefix, `"//"`, and whitespace in the step before the next `"/"` — but in
the base case (no further separator) the remaining text is accepted
verbatim as the step, even when it is empty or whitespace-only. -/
theorem claim_C8_amended :
    (DefaultTokenizer.dict_parse [] = .error .EmptyKey ∧
      SlashTokenizer.dict_parse [] = .error .EmptyKey) ∧
    (∀ rest, DefaultTokenizer.dict_parse ('.' :: rest) =
      .error .EmptyKey) ∧
    (∀ cur rest, cur ≠ [] → '.' ∉ cur →
      (∃ x ∈ cur, isRustWhitespace x = true) →
      DefaultTokenizer.dict_parse (cur ++ '.' :: rest) =
        .error (.ParseError cur)) ∧
    (∀ key, key ≠ [] → '.' ∉ key →
      DefaultTokenizer.dict_parse key = .ok (some key, none)) ∧
    (∀ c rest, c ≠ '/' → SlashTokenizer.dict_parse (c :: rest) =
      .error (.ParseError (c :: rest))) ∧
    (∀ rest, SlashTokenizer.dict_parse ('/' :: '/' :: rest) =
      .error .EmptyKey) ∧
    (∀ cur rest, cur ≠ [] → '/' ∉ cur →
      (∃ x ∈ cur, isRustWhitespace x = true) →
      SlashTokenizer.dict_parse ('/' :: cur ++ '/' :: rest) =
        .error (.ParseError cur)) ∧
    (∀ tail, '/' ∉ tail →
      SlashTokenizer.dict_parse ('/' :: tail) = .ok (some tail, none)) := by
  refine ⟨⟨rfl, rfl⟩, ?_, ?_, ?_, ?_, ?_, ?_, ?_⟩
  · intro rest
    simp [DefaultTokenizer, findFirst]
  · intro cur rest hne hdot hws
    have hfind : findFirst (fun c => c = '.') (cur ++ '.' :: rest) =
        some cur.length :=
      findFirst_append _ cur '.' rest
        (fun x hx => by
          simp only [decide_eq_false_iff_not]
          intro hcontra
          exact hdot (hcontra ▸ hx))
        (by simp)
    have hemp : (cur ++ '.' :: rest).isEmpty = false := by
      cases cur <;> simp
    have htake : (cur ++ '.' :: rest).take cur.length = cur :=
      List.take_left cur ('.' :: rest)
    obtain ⟨x, hx, hpx⟩ := hws
    have hwfind : findFirst isRustWhitespace cur ≠ none := by
      intro hn
      have := (findFirst_eq_none_iff _ _).mp hn x hx
      rw [hpx] at this
      exact Bool.noConfusion this
    obtain ⟨j, hj⟩ := Option.ne_none_iff_exists'.mp hwfind
    simp [DefaultTokenizer, hemp, hfind, htake, hj,
      List.length_eq_zero, hne]
  · intro key hne hdot
    have hfind : findFirst (fun c => c = '.') key = none :=
      (findFirst_eq_none_iff _ _).mpr (fun x hx => by
        simp only [decide_eq_false_iff_not]
        intro hcontra
        exact hdot (hcontra ▸ hx))
    have hemp : key.isEmpty = false := by
      cases key with
      | nil => exact absurd rfl hne
      | cons c cs => rfl
    simp [DefaultTokenizer, hemp, hfind, hne]
  · intro c rest hc
    simp only [SlashTokenizer, List.isEmpty_cons, Bool.false_eq_true,
      if_false]
    rw [if_pos (by simpa using hc)]
  · intro rest
    simp [SlashTokenizer, findFirst]
  · intro cur rest hne hsl hws
    have hfind : findFirst (fun c => c = '/') (cur ++ '/' :: rest) =
        some cur.length :=
      findFirst_append _ cur '/' rest
        (fun x hx => by
          simp only [decide_eq_false_iff_not]
          intro hcontra
          exact hsl (hcontra ▸ hx))
        (by simp)
    have htake : (cur ++ '/' :: rest).take cur.length = cur :=
      List.take_left cur ('/' :: rest)
    obtain ⟨x, hx, hpx⟩ := hws
    have hwfind : findFirst isRustWhitespace cur ≠ none := by
      intro hn
      have := (findFirst_eq_none_iff _ _).mp hn x hx
      rw [hpx] at this
      exact Bool.noConfusion this
    obtain ⟨j, hj⟩ := Option.ne_none_iff_exists'.mp hwfind
    simp [SlashTokenizer, hfind, htake, hj, List.length_eq_zero, hne]
  · intro tail hsl
    have hfind : findFirst (fun c => c = '/') tail = none :=
      (findFirst_eq_none_iff _ _).mpr (fun x hx => by
        simp only [decide_eq_false_iff_not]
        intro hcontra
        exact hsl (hcontra ▸ hx))
    simp [SlashTokenizer, hfind]

/-- Witness for the amended C8: whitespace before a separator is
rejected, whitespace-only base cases are accepted verbatim. -/
theorem claim_C8_amended_witness :
    DefaultTokenizer.dict_parse "a b.c".data =
      .error (.ParseError "a b".data) ∧
    DefaultTokenizer.dict_parse " ".data = .ok (some " ".data, none) ∧
    SlashTokenizer.dict_parse "/ ".data = .ok (some " ".data, none) := by
  refine ⟨?_, ?_, ?_⟩
  · exact claim_C8_amended.2.2.1 "a b".data "c".data (by decide)
      (by decide) ⟨' ', by decide, by decide⟩
  · exact claim_C8_amended.2.2.2.1 " ".data (by decide) (by decide)
  · exact claim_C8_amended.2.2.2.2.2.2.2 " ".data (by decide)

end Querable
